import Mathlib

/-!
Verification development for `src/docker-extract.c` (singularity docker layer
extraction).  The C program applies one docker/OCI layer tar onto a rootfs in
two phases: `apply_whiteouts` (scan the archive for AUFS whiteout / opaque
markers and delete the referenced paths under the rootfs) followed by
`extract_tar` (extract the archive, skipping marker entries and special
files).  Paths are modelled as C strings (`List Char`); the filesystem is a
map from raw path strings to node kinds.  The libarchive collaborator and the
`util/` helpers (`is_dir`, `is_file`, `s_rmdir`, `unlink`, registry lookup)
are not part of the repository sources, so their semantics are modelled from
the specification; everything else follows the C source line by line.
-/

/-- C strings as lists of characters. -/
abbrev CStr := List Char

/-- Filesystem node kinds.  `file` stands for any non-directory object that
`is_file` accepts (regular file or symlink, per the spec); `other` stands for
pre-existing special objects (sockets, devices, FIFOs) that neither `is_dir`
nor `is_file` accepts. -/
inductive Node
  | dir
  | file
  | other
deriving DecidableEq

/-- A filesystem state: raw path strings to nodes.  `none` means the path
does not exist. -/
abbrev FS := CStr → Option Node

/-- Modelled from the spec: recursive deletion removes the target and
everything below it (paths extending the target with a `/`). -/
def eraseTree (t : CStr) (fs : FS) : FS :=
  fun q => if q = t then none else if (t ++ ['/']).isPrefixOf q then none else fs q

/-- Modelled from the spec: unlink removes exactly the target path. -/
def erasePoint (t : CStr) (fs : FS) : FS :=
  fun q => if q = t then none else fs q

/-- Modelled from the spec: `is_dir` (util/file.h, not in src) returns 0 when
the path is an existing directory, negative otherwise. -/
def is_dir (fs : FS) (p : CStr) : Int :=
  if fs p = some Node.dir then 0 else -1

/-- Modelled from the spec: `is_file` (util/file.h, not in src) returns 0 when
the path is an existing regular file or symlink, negative otherwise. -/
def is_file (fs : FS) (p : CStr) : Int :=
  if fs p = some Node.file then 0 else -1

/-- Modelled from the spec: `s_rmdir` (util/file.h, not in src) removes a
directory recursively; `denied` is the set of paths whose deletion fails
(permission denied / I-O error), in which case a nonzero status is returned
and the filesystem is unchanged. -/
def s_rmdir (denied : CStr → Bool) (fs : FS) (t : CStr) : Int × FS :=
  if denied t then (-1, fs) else (0, eraseTree t fs)

/-- Modelled from the spec: `unlink` removes a single file; fails on `denied`
paths with a nonzero status and no filesystem change. -/
def unlink (denied : CStr → Bool) (fs : FS) (t : CStr) : Int × FS :=
  if denied t then (-1, fs) else (0, erasePoint t fs)

/-- Index of the first occurrence of `pat` in `s` (C `strstr`). -/
def strstrIdx (pat : CStr) : CStr → Option Nat
  | [] => if pat.isPrefixOf [] then some 0 else none
  | c :: tl =>
    if pat.isPrefixOf (c :: tl) then some 0
    else (strstrIdx pat tl).map (· + 1)

/-- Index of the last occurrence of character `c` in `s` (C `strrchr`). -/
def strrchrIdx (c : Char) : CStr → Option Nat
  | [] => none
  | x :: tl =>
    match strrchrIdx c tl with
    | some i => some (i + 1)
    | none => if x = c then some 0 else none

/-- The `.wh.` whiteout tag searched by `apply_whiteout` (C line 66). -/
def whPat : CStr := ".wh.".data

/-- The opaque-marker pattern searched by `apply_whiteouts` (C line 133). -/
def opqPat : CStr := "/.wh..wh..opq".data

/-- The whiteout pattern searched by `apply_whiteouts` (C line 139) and by the
extractor skip test (C line 250). -/
def whSlashPat : CStr := "/.wh.".data

/-- Embedding of `apply_opaque` (C lines 25-53).  Given the opaque marker
pathname, take the prefix before the last `/` (the containing directory),
resolve it under the rootfs and remove it recursively if it is a directory.
The return value of `s_rmdir` is discarded by the C code; the function
returns `retval = 0` on every non-aborting path.  `.error` models `ABORT`. -/
def apply_opaque (denied : CStr → Bool) (opq_marker rootfs_dir : CStr) (fs : FS) :
    Except (Int × FS) (Int × FS) :=
  match strrchrIdx '/' opq_marker with
  | none => .error (255, fs)
  | some i =>
    let opq_dir := opq_marker.take i
    let opq_dir_rootfs := rootfs_dir ++ ['/'] ++ opq_dir
    if is_dir fs opq_dir_rootfs = 0 then
      .ok (0, (s_rmdir denied fs opq_dir_rootfs).2)
    else
      .ok (0, fs)

/-- Embedding of `apply_whiteout` (C lines 61-105).  The target path is the
marker pathname with the first occurrence of `.wh.` removed (prefix before
the occurrence concatenated with the suffix after it), resolved under the
rootfs; directories are removed recursively, files unlinked, and the deletion
status is returned as `retval`. -/
def apply_whiteout (denied : CStr → Bool) (wh_marker rootfs_dir : CStr) (fs : FS) :
    Except (Int × FS) (Int × FS) :=
  match strstrIdx whPat wh_marker with
  | none => .error (255, fs)
  | some token_pos =>
    let wh_path := wh_marker.take token_pos ++ wh_marker.drop (token_pos + 4)
    let wh_path_rootfs := rootfs_dir ++ ['/'] ++ wh_path
    if is_dir fs wh_path_rootfs = 0 then
      .ok (s_rmdir denied fs wh_path_rootfs)
    else if is_file fs wh_path_rootfs = 0 then
      .ok (unlink denied fs wh_path_rootfs)
    else
      .ok (0, fs)

/-- One iteration of the `apply_whiteouts` scan loop (C lines 129-146):
classify the entry by substring search (opaque first, then whiteout) and
apply the corresponding deletion; unclassified entries are ignored. -/
def processMarkerEntry (denied : CStr → Bool) (rootfs_dir : CStr) (fs : FS)
    (pathname : CStr) : Except (Int × FS) (Int × FS) :=
  if (strstrIdx opqPat pathname).isSome then
    apply_opaque denied pathname rootfs_dir fs
  else if (strstrIdx whSlashPat pathname).isSome then
    apply_whiteout denied pathname rootfs_dir fs
  else
    .ok (0, fs)

/-- The `apply_whiteouts` scan loop: processes entries in order and breaks at
the first nonzero `errcode` (C lines 129-146), returning `errcode`. -/
def apply_whiteouts_loop (denied : CStr → Bool) (rootfs_dir : CStr) :
    List CStr → FS → Except (Int × FS) (Int × FS)
  | [], fs => .ok (0, fs)
  | p :: rest, fs =>
    match processMarkerEntry denied rootfs_dir fs p with
    | .error e => .error e
    | .ok (errcode, fs') =>
      if errcode ≠ 0 then .ok (errcode, fs')
      else apply_whiteouts_loop denied rootfs_dir rest fs'

/-- Embedding of `apply_whiteouts` (C lines 110-158).  A failed archive open
returns 1 without touching the filesystem; otherwise the scan loop runs.
(The `archive_read_free` failure abort after the loop is not modelled.) -/
def apply_whiteouts (denied : CStr → Bool) (openOk : Bool) (entries : List CStr)
    (rootfs_dir : CStr) (fs : FS) : Except (Int × FS) (Int × FS) :=
  if openOk then apply_whiteouts_loop denied rootfs_dir entries fs
  else .ok (1, fs)

/-- Tar entry file types distinguished by the extractor (C lines 250-251). -/
inductive FType
  | reg
  | dir
  | symlink
  | hardlink
  | sock
  | chr
  | blk
  | fifo
deriving DecidableEq

/-- A tar archive entry together with the libarchive status codes its
processing yields in `extract_tar` (oracle inputs for the external archive
collaborator): `hdrR` for `archive_read_next_header`, `whR` for
`archive_write_header`, `cpR` for `copy_data`, `feR` for
`archive_write_finish_entry`. -/
structure TarEntry where
  pathname : CStr
  ftype : FType
  size : Nat
  hdrR : Int
  whR : Int
  cpR : Int
  feR : Int
deriving DecidableEq

def ARCHIVE_OK : Int := 0

def ARCHIVE_WARN : Int := -20

/-- Socket, character device, block device and FIFO entry types (C line
250-251). -/
def specialType : FType → Bool
  | .sock => true
  | .chr => true
  | .blk => true
  | .fifo => true
  | _ => false

/-- The extractor skip test (C lines 250-253): entries whose pathname contains
the substring `/.wh.` and entries of special type are not extracted. -/
def skipEntry (e : TarEntry) : Bool :=
  (strstrIdx whSlashPat e.pathname).isSome || specialType e.ftype

/-- Modelled from the spec: the extractor runs after `chdir(rootfs_dir)`, so a
relative entry pathname lands under the rootfs while an absolute pathname is
written at its literal location. -/
def effPath (rootfs_dir : CStr) (p : CStr) : CStr :=
  if p.head? = some '/' then p else rootfs_dir ++ ['/'] ++ p

/-- Node kind materialized by extracting an entry: directories become
directories, everything else that is extracted (regular files, symlinks,
hardlinks) becomes a non-directory object. -/
def nodeOf : FType → Node
  | .dir => Node.dir
  | _ => Node.file

/-- Modelled from the spec: materializing one archive entry on disk (the
`archive_write_header` / `copy_data` collaborator) sets the node at the
entry's effective path. -/
def writeEntryFS (rootfs_dir : CStr) (e : TarEntry) (fs : FS) : FS :=
  fun q => if q = effPath rootfs_dir e.pathname then some (nodeOf e.ftype) else fs q

/-- The `extract_tar` entry loop (C lines 230-276): severe header errors
abort, marker and special entries are skipped, write/copy/finish warnings are
tolerated and severe ones abort. -/
def extract_tar_loop (rootfs_dir : CStr) :
    List TarEntry → FS → Except (Int × FS) FS
  | [], fs => .ok fs
  | e :: rest, fs =>
    if e.hdrR < ARCHIVE_WARN then .error (255, fs)
    else if skipEntry e then extract_tar_loop rootfs_dir rest fs
    else if e.whR < ARCHIVE_OK then
      if e.feR < ARCHIVE_WARN then .error (255, fs)
      else extract_tar_loop rootfs_dir rest fs
    else
      let fs' := writeEntryFS rootfs_dir e fs
      if e.size > 0 ∧ e.cpR < ARCHIVE_WARN then .error (255, fs')
      else if e.feR < ARCHIVE_WARN then .error (255, fs')
      else extract_tar_loop rootfs_dir rest fs'

/-- Embedding of `extract_tar` (C lines 189-296).  `retval` is initialized to
0 (C line 190) and never reassigned; every fatal condition (failed open,
failed chdir, severe archive errors) calls `ABORT(255)` directly, modelled as
`.error`.  (The final chdir-back abort is not modelled.) -/
def extract_tar (openOk chdirOk : Bool) (entries : List TarEntry)
    (rootfs_dir : CStr) (fs : FS) : Except (Int × FS) (Int × FS) :=
  if ¬ openOk then .error (255, fs)
  else if ¬ chdirOk then .error (255, fs)
  else
    match extract_tar_loop rootfs_dir entries fs with
    | .error e => .error e
    | .ok fs' => .ok (0, fs')

/-- Exit sites of `main` (C lines 298-342). -/
inductive Outcome
  | success
  | abortBadArgs
  | abortNoEnv
  | abortNoRootfsDir
  | abortNoTarFile
  | abortInsideWhiteouts
  | abortWhiteoutErr
  | abortInsideExtract
  | abortExtractErr
deriving DecidableEq

/-- Process exit status for each exit site: 0 on success, `ABORT(255)`
everywhere else. -/
def Outcome.exitCode : Outcome → Int
  | .success => 0
  | _ => 255

/-- The environment and collaborator oracle of one program invocation:
argument count, registry lookup result, validity of the rootfs and tar paths,
archive open / chdir results, the set of denied deletions and the archive
contents, together with the initial filesystem. -/
structure Config where
  argc : Nat
  rootfsReg : Option CStr
  rootfsIsDir : Bool
  tarIsFile : Bool
  whOpenOk : Bool
  exOpenOk : Bool
  exChdirOk : Bool
  denied : CStr → Bool
  entries : List TarEntry
  fs : FS

/-- Embedding of `main` (C lines 298-342): validate the configuration, run
`apply_whiteouts`, abort on a nonzero result, then run `extract_tar` and
abort on a nonzero result. -/
def main_run (cfg : Config) : Outcome × FS :=
  if cfg.argc ≠ 2 then (.abortBadArgs, cfg.fs)
  else
    match cfg.rootfsReg with
    | none => (.abortNoEnv, cfg.fs)
    | some rootfs_dir =>
      if ¬ cfg.rootfsIsDir then (.abortNoRootfsDir, cfg.fs)
      else if ¬ cfg.tarIsFile then (.abortNoTarFile, cfg.fs)
      else
        match apply_whiteouts cfg.denied cfg.whOpenOk
            (cfg.entries.map TarEntry.pathname) rootfs_dir cfg.fs with
        | .error (_, fs1) => (.abortInsideWhiteouts, fs1)
        | .ok (retval, fs1) =>
          if retval ≠ 0 then (.abortWhiteoutErr, fs1)
          else
            match extract_tar cfg.exOpenOk cfg.exChdirOk cfg.entries
                rootfs_dir fs1 with
            | .error (_, fs2) => (.abortInsideExtract, fs2)
            | .ok (retval2, fs2) =>
              if retval2 ≠ 0 then (.abortExtractErr, fs2)
              else (.success, fs2)

/-- The always-succeeding deletion oracle (no permission or I-O failures). -/
def noDenied : CStr → Bool := fun _ => false

/-- The filesystem effect of one scan-loop iteration under `noDenied` (the
status code is then always 0 and no abort occurs, see
`processMarkerEntry_noDenied`). -/
def markerStep (rootfs_dir : CStr) (fs : FS) (p : CStr) : FS :=
  match processMarkerEntry noDenied rootfs_dir fs p with
  | .ok x => x.2
  | .error x => x.2

/-- The filesystem effect of the whole whiteout scan under `noDenied`. -/
def whFold (rootfs_dir : CStr) (entries : List CStr) (fs : FS) : FS :=
  entries.foldl (markerStep rootfs_dir) fs

/-- Opaque-marker disposition on a resolved target: remove recursively when
the target is an existing directory, otherwise no-op; the status is 0 in
every case (deletion failures are discarded). -/
def opqDisposition (denied : CStr → Bool) (fs : FS) (t : CStr) : Int × FS :=
  (0, if fs t = some Node.dir then (s_rmdir denied fs t).2 else fs)

/-- Whiteout-marker disposition on a resolved target: remove recursively when
it is an existing directory, unlink when it is an existing file, otherwise
no-op with status 0. -/
def whDisposition (denied : CStr → Bool) (fs : FS) (t : CStr) : Int × FS :=
  if fs t = some Node.dir then s_rmdir denied fs t
  else if fs t = some Node.file then unlink denied fs t
  else (0, fs)

/-- The filesystem effect of one extractor iteration with all-OK archive
status codes: skip or materialize. -/
def extractStep (rootfs_dir : CStr) (fs : FS) (e : TarEntry) : FS :=
  if skipEntry e then fs else writeEntryFS rootfs_dir e fs

/-- The filesystem effect of the whole extraction pass with all-OK archive
status codes. -/
def extractFold (rootfs_dir : CStr) (entries : List TarEntry) (fs : FS) : FS :=
  entries.foldl (extractStep rootfs_dir) fs

/-- An archive entry whose libarchive status codes are all `ARCHIVE_OK`. -/
def mkEntry (p : CStr × FType) : TarEntry :=
  ⟨p.1, p.2, 0, 0, 0, 0, 0⟩

/-- Full layer application (whiteouts then extraction) on the success path:
no denied deletions, successful opens, all-OK entry statuses. -/
def applyLayerNF (layer : List (CStr × FType)) (rootfs_dir : CStr) (fs : FS) : FS :=
  extractFold rootfs_dir (layer.map mkEntry)
    (whFold rootfs_dir (layer.map Prod.fst) fs)

/-- A filesystem is consistent when every existing path has all its proper
ancestors present as directories (true of any real filesystem tree). -/
def consistentFS (fs : FS) : Prop :=
  ∀ t q : CStr, fs q ≠ none → (t ++ ['/']) <+: q → fs t = some Node.dir

/-- Path components of a raw path string, split at `/`. -/
def splitSlashAux : CStr → CStr → List CStr
  | [], acc => [acc.reverse]
  | c :: rest, acc =>
    if c = '/' then acc.reverse :: splitSlashAux rest []
    else splitSlashAux rest (c :: acc)

def splitSlash (s : CStr) : List CStr := splitSlashAux s []

/-- Lexical path normalization: drop empty and `.` components, let `..` pop
the previous component. -/
def normSegs (segs : List CStr) : List CStr :=
  segs.foldl
    (fun acc seg =>
      if seg = [] ∨ seg = ['.'] then acc
      else if seg = ['.', '.'] then acc.dropLast
      else acc ++ [seg]) []

def normalizePath (p : CStr) : List CStr := normSegs (splitSlash p)

/-- A computed path is confined under the rootfs when its normalized form
extends the normalized rootfs. -/
def confinedUnder (rootfs_dir p : CStr) : Bool :=
  (normalizePath rootfs_dir).isPrefixOf (normalizePath p)

/-- Semantics of `apply_opaque` on its resolved target under `noDenied`:
remove the tree when the target is an existing directory, else no-op. -/
def opqDel (t : CStr) (fs : FS) : FS :=
  if fs t = some Node.dir then eraseTree t fs else fs

/-- Semantics of `apply_whiteout` on its resolved target under `noDenied`:
remove the tree for a directory, unlink a file, else no-op. -/
def whDel (t : CStr) (fs : FS) : FS :=
  if fs t = some Node.dir then eraseTree t fs
  else if fs t = some Node.file then erasePoint t fs
  else fs

/-- The last (rightmost) non-skipped extraction write landing at a path. -/
def lastWriteAt (rootfs_dir : CStr) : List TarEntry → CStr → Option Node
  | [], _ => none
  | e :: rest, q =>
    match lastWriteAt rootfs_dir rest q with
    | some nd => some nd
    | none =>
      if ¬ skipEntry e ∧ effPath rootfs_dir e.pathname = q then some (nodeOf e.ftype)
      else none

/-- Observation of `apply_whiteouts` at one path: the returned status code
and the resulting node, or `none` when the scan aborted the process. -/
def whObserve (denied : CStr → Bool) (openOk : Bool) (entries : List CStr)
    (rootfs_dir : CStr) (fs : FS) (q : CStr) : Option (Int × Option Node) :=
  match apply_whiteouts denied openOk entries rootfs_dir fs with
  | .ok (c, fs') => some (c, fs' q)
  | .error _ => none

/-- Observation of `extract_tar` at one path. -/
def exObserve (openOk chdirOk : Bool) (entries : List TarEntry)
    (rootfs_dir : CStr) (fs : FS) (q : CStr) : Option (Int × Option Node) :=
  match extract_tar openOk chdirOk entries rootfs_dir fs with
  | .ok (c, fs') => some (c, fs' q)
  | .error _ => none
/-- The C `strstr` search succeeds exactly on substrings. -/
theorem strstrIdx_isSome_iff (pat : CStr) (s : CStr) :
    (strstrIdx pat s).isSome ↔ pat <:+: s := by
  induction s with
  | nil =>
    cases pat with
    | nil => simp [strstrIdx, List.isPrefixOf]
    | cons a t => simp [strstrIdx, List.isPrefixOf]
  | cons c tl ih =>
    by_cases h : pat <+: (c :: tl)
    · have hb : pat.isPrefixOf (c :: tl) = true := List.isPrefixOf_iff_prefix.mpr h
      simp only [strstrIdx, hb, if_true, Option.isSome_some, true_iff]
      exact h.isInfix
    · cases hb : pat.isPrefixOf (c :: tl) with
      | true => exact absurd (List.isPrefixOf_iff_prefix.mp hb) h
      | false =>
        simp [strstrIdx, hb, List.infix_cons_iff, ih]
        exact fun hp => absurd hp h

/-- When `pat` occurs at position `k` and at no earlier position, `strstr`
returns `k`. -/
theorem strstrIdx_eq_some (pat : CStr) :
    ∀ (s : CStr) (k : Nat), pat <+: s.drop k → (∀ j, j < k → ¬ pat <+: s.drop j) →
      strstrIdx pat s = some k := by
  intro s
  induction s with
  | nil =>
    intro k hk hmin
    have hpat : pat = [] := List.prefix_nil.mp (by simpa using hk)
    subst hpat
    cases k with
    | zero => simp [strstrIdx, List.isPrefixOf]
    | succ k' => exact absurd List.nil_prefix (hmin 0 (Nat.succ_pos _))
  | cons c tl ih =>
    intro k hk hmin
    cases k with
    | zero =>
      have hb : pat.isPrefixOf (c :: tl) = true :=
        List.isPrefixOf_iff_prefix.mpr (by simpa using hk)
      simp [strstrIdx, hb]
    | succ k' =>
      have h0 : ¬ pat <+: (c :: tl) := by simpa using hmin 0 (Nat.succ_pos _)
      cases hb : pat.isPrefixOf (c :: tl) with
      | true => exact absurd (List.isPrefixOf_iff_prefix.mp hb) h0
      | false =>
        have hk' : pat <+: tl.drop k' := by simpa using hk
        have hmin' : ∀ j, j < k' → ¬ pat <+: tl.drop j := fun j hj hp =>
          hmin (j + 1) (Nat.succ_lt_succ hj) (by simpa using hp)
        simp [strstrIdx, hb, ih k' hk' hmin']

/-- The C `strrchr` search succeeds exactly on contained characters. -/
theorem strrchrIdx_isSome_iff (c : Char) (s : CStr) :
    (strrchrIdx c s).isSome ↔ c ∈ s := by
  induction s with
  | nil => simp [strrchrIdx]
  | cons x tl ih =>
    simp only [strrchrIdx]
    cases htl : strrchrIdx c tl with
    | some i =>
      simp [htl] at ih ⊢
      simp [List.mem_cons, ih]
    | none =>
      simp [htl] at ih ⊢
      by_cases hx : x = c
      · simp [hx]
      · simp [hx, List.mem_cons, ih]
        intro h
        exact hx h.symm
/-- A prefix of an append that fits in the left part is a prefix of the left
part. -/
theorem prefix_of_append_of_le (p x y : CStr) (h : p <+: x ++ y)
    (hl : p.length ≤ x.length) : p <+: x := by
  have ht : (x ++ y).take p.length = p := (List.prefix_iff_eq_take.mp h).symm
  have h2 : x.take p.length = p := by rw [← List.take_append_of_le_length hl, ht]
  rw [← h2]
  exact List.take_prefix _ _

/-- A character sitting inside an occurrence of `pat` belongs to `pat`. -/
theorem mem_pat_of_prefix_drop (pat s : CStr) (j i : Nat) (a : Char)
    (h : pat <+: s.drop j) (hji : j ≤ i) (hlt : i < j + pat.length)
    (ha : s.get? i = some a) : a ∈ pat := by
  obtain ⟨t, ht⟩ := h
  have hij : i - j < pat.length := by omega
  have h1 : (s.drop j).get? (i - j) = some a := by
    rw [List.get?_drop]
    have hji2 : j + (i - j) = i := by omega
    rw [hji2, ha]
  have h2 : pat.get? (i - j) = some a := by
    rw [← ht] at h1
    rwa [List.get?_append hij] at h1
  exact List.get?_mem h2

/-- In a well-formed whiteout marker `d/.wh.n` whose directory part does not
contain the tag `.wh.`, the first occurrence of `.wh.` found by `strstr` is
the one right after the last slash. -/
theorem strstrIdx_whPat_marker (d n : CStr) (hd : strstrIdx whPat d = none) :
    strstrIdx whPat (d ++ ['/'] ++ whPat ++ n) = some (d.length + 1) := by
  have hlen : whPat.length = 4 := by decide
  have hslash : ('/' : Char) ∉ whPat := by decide
  have hinfix_d : ¬ whPat <:+: d := by
    intro hi
    have h5 := (strstrIdx_isSome_iff whPat d).mpr hi
    rw [hd] at h5
    cases h5
  apply strstrIdx_eq_some
  · have hdr : (d ++ ['/'] ++ whPat ++ n).drop (d.length + 1) = whPat ++ n := by
      have h1 : d ++ ['/'] ++ whPat ++ n = (d ++ ['/']) ++ (whPat ++ n) := by
        simp [List.append_assoc]
      have h2 : d.length + 1 = (d ++ ['/']).length := by simp
      rw [h1, h2, List.drop_left]
    rw [hdr]
    exact List.prefix_append _ _
  · intro j hj hp
    have hjle : j ≤ d.length := Nat.lt_succ_iff.mp hj
    have hgetSlash : (d ++ ['/'] ++ whPat ++ n).get? d.length = some '/' := by
      have h1 : d ++ ['/'] ++ whPat ++ n = (d ++ ['/']) ++ (whPat ++ n) := by
        simp [List.append_assoc]
      rw [h1, List.get?_append (by simp), List.get?_append_right (le_refl _)]
      simp
    by_cases hcase : j + 4 ≤ d.length
    · have hdrop : (d ++ ['/'] ++ whPat ++ n).drop j = d.drop j ++ (['/'] ++ whPat ++ n) := by
        have h1 : d ++ ['/'] ++ whPat ++ n = d ++ (['/'] ++ whPat ++ n) := by
          simp [List.append_assoc]
        rw [h1, List.drop_append_of_le_length hjle]
      rw [hdrop] at hp
      have hfit : whPat.length ≤ (d.drop j).length := by
        simp [hlen]
        omega
      have hpd : whPat <+: d.drop j := prefix_of_append_of_le _ _ _ hp hfit
      exact hinfix_d (hpd.isInfix.trans (List.drop_suffix j d).isInfix)
    · have hmem : ('/' : Char) ∈ whPat :=
        mem_pat_of_prefix_drop whPat _ j d.length '/' hp hjle (by omega) hgetSlash
      exact hslash hmem

/-- Under the never-failing deletion oracle, one scan-loop iteration never
aborts and always reports status 0. -/
theorem processMarkerEntry_noDenied_ex (r : CStr) (fs : FS) (p : CStr) :
    ∃ fs', processMarkerEntry noDenied r fs p = .ok (0, fs') := by
  by_cases h1 : (strstrIdx opqPat p).isSome
  · have hm : ('/' : Char) ∈ p :=
      (List.IsInfix.subset ((strstrIdx_isSome_iff _ _).mp h1)) (by decide)
    obtain ⟨i, hi⟩ := Option.isSome_iff_exists.mp ((strrchrIdx_isSome_iff _ _).mpr hm)
    simp [processMarkerEntry, h1, apply_opaque, hi]
    split
    · exact ⟨_, rfl⟩
    · exact ⟨_, rfl⟩
  · by_cases h2 : (strstrIdx whSlashPat p).isSome
    · have hwh : whPat <:+: p := by
        have h4 : whPat <:+: whSlashPat := by decide
        exact h4.trans ((strstrIdx_isSome_iff _ _).mp h2)
      obtain ⟨tp, htp⟩ := Option.isSome_iff_exists.mp ((strstrIdx_isSome_iff _ _).mpr hwh)
      simp [processMarkerEntry, h1, h2, apply_whiteout, htp, s_rmdir, unlink, noDenied]
      split
      · exact ⟨_, rfl⟩
      · split
        · exact ⟨_, rfl⟩
        · exact ⟨_, rfl⟩
    · exact ⟨fs, by simp [processMarkerEntry, h1, h2]⟩

/-- The scan-loop iteration under `noDenied` computes `markerStep` with
status 0. -/
theorem processMarkerEntry_noDenied (r : CStr) (fs : FS) (p : CStr) :
    processMarkerEntry noDenied r fs p = .ok (0, markerStep r fs p) := by
  obtain ⟨fs', h⟩ := processMarkerEntry_noDenied_ex r fs p
  rw [h]
  unfold markerStep
  rw [h]

/-- Under the never-failing deletion oracle, the scan loop runs to the end of
the archive, reports status 0 and computes the `whFold` filesystem. -/
theorem apply_whiteouts_loop_noDenied (r : CStr) :
    ∀ (L : List CStr) (fs : FS),
      apply_whiteouts_loop noDenied r L fs = .ok (0, whFold r L fs) := by
  intro L
  induction L with
  | nil => intro fs; simp [apply_whiteouts_loop, whFold]
  | cons p rest ih =>
    intro fs
    have hstep : apply_whiteouts_loop noDenied r (p :: rest) fs =
        apply_whiteouts_loop noDenied r rest (markerStep r fs p) := by
      simp [apply_whiteouts_loop, processMarkerEntry_noDenied]
    rw [hstep, ih]
    simp [whFold]

/-- Under the never-failing deletion oracle, `apply_whiteouts` succeeds with
status 0 and computes the `whFold` filesystem. -/
theorem apply_whiteouts_noDenied (r : CStr) (L : List CStr) (fs : FS) :
    apply_whiteouts noDenied true L r fs = .ok (0, whFold r L fs) := by
  simp [apply_whiteouts, apply_whiteouts_loop_noDenied]

/-- With all-OK archive status codes the extraction loop never aborts and
computes the `extractFold` filesystem. -/
theorem extract_tar_loop_allOk (r : CStr) :
    ∀ (E : List TarEntry) (fs : FS),
      (∀ e ∈ E, e.hdrR = 0 ∧ e.whR = 0 ∧ e.cpR = 0 ∧ e.feR = 0) →
      extract_tar_loop r E fs = .ok (extractFold r E fs) := by
  intro E
  induction E with
  | nil => intro fs _; simp [extract_tar_loop, extractFold]
  | cons e rest ih =>
    intro fs hall
    obtain ⟨h1, h2, h3, h4⟩ := hall e (List.mem_cons_self _ _)
    have hrest : ∀ x ∈ rest, x.hdrR = 0 ∧ x.whR = 0 ∧ x.cpR = 0 ∧ x.feR = 0 :=
      fun x hx => hall x (List.mem_cons_of_mem _ hx)
    by_cases hskip : skipEntry e
    · have hs : extract_tar_loop r (e :: rest) fs = extract_tar_loop r rest fs := by
        simp [extract_tar_loop, h1, hskip, ARCHIVE_WARN]
      rw [hs, ih _ hrest]
      simp [extractFold, extractStep, hskip]
    · have hs : extract_tar_loop r (e :: rest) fs =
          extract_tar_loop r rest (writeEntryFS r e fs) := by
        simp [extract_tar_loop, h1, h2, h3, h4, hskip, ARCHIVE_WARN, ARCHIVE_OK]
      rw [hs, ih _ hrest]
      simp [extractFold, extractStep, hskip]

/-- With all-OK archive status codes `extract_tar` returns 0 and computes the
`extractFold` filesystem. -/
theorem extract_tar_allOk (E : List TarEntry) (r : CStr) (fs : FS)
    (h : ∀ e ∈ E, e.hdrR = 0 ∧ e.whR = 0 ∧ e.cpR = 0 ∧ e.feR = 0) :
    extract_tar true true E r fs = .ok (0, extractFold r E fs) := by
  simp [extract_tar, extract_tar_loop_allOk r E fs h]
/-- The deletion applied by one scan iteration is determined by the pathname
alone: either a no-op, an opaque deletion at a fixed target, or a whiteout
deletion at a fixed target, independently of the filesystem. -/
theorem markerStep_shape (r p : CStr) :
    (∀ fs : FS, markerStep r fs p = fs) ∨
    (∃ t, ∀ fs : FS, markerStep r fs p = opqDel t fs) ∨
    (∃ t, ∀ fs : FS, markerStep r fs p = whDel t fs) := by
  by_cases h1 : (strstrIdx opqPat p).isSome
  · cases hr : strrchrIdx '/' p with
    | none =>
      left
      intro fs
      simp [markerStep, processMarkerEntry, h1, apply_opaque, hr]
    | some i =>
      refine Or.inr (Or.inl ⟨r ++ ['/'] ++ p.take i, fun fs => ?_⟩)
      by_cases hdir : fs (r ++ ['/'] ++ p.take i) = some Node.dir
      · simp only [List.append_assoc, List.singleton_append] at hdir
        simp [markerStep, processMarkerEntry, h1, apply_opaque, hr, is_dir, hdir,
          s_rmdir, noDenied, opqDel]
      · simp only [List.append_assoc, List.singleton_append] at hdir
        simp [markerStep, processMarkerEntry, h1, apply_opaque, hr, is_dir, hdir, opqDel]
  · by_cases h2 : (strstrIdx whSlashPat p).isSome
    · cases htp : strstrIdx whPat p with
      | none =>
        left
        intro fs
        simp [markerStep, processMarkerEntry, h1, h2, apply_whiteout, htp]
      | some tp =>
        refine Or.inr (Or.inr ⟨r ++ ['/'] ++ (p.take tp ++ p.drop (tp + 4)), fun fs => ?_⟩)
        by_cases hdir : fs (r ++ ['/'] ++ (p.take tp ++ p.drop (tp + 4))) = some Node.dir
        · simp only [List.append_assoc, List.singleton_append] at hdir
          simp [markerStep, processMarkerEntry, h1, h2, apply_whiteout, htp, is_dir, hdir,
            s_rmdir, noDenied, whDel]
        · by_cases hfile : fs (r ++ ['/'] ++ (p.take tp ++ p.drop (tp + 4))) = some Node.file
          · simp only [List.append_assoc, List.singleton_append] at hdir hfile
            simp [markerStep, processMarkerEntry, h1, h2, apply_whiteout, htp, is_dir,
              is_file, hdir, hfile, unlink, noDenied, whDel]
          · simp only [List.append_assoc, List.singleton_append] at hdir hfile
            simp [markerStep, processMarkerEntry, h1, h2, apply_whiteout, htp, is_dir,
              is_file, hdir, hfile, whDel]
    · left
      intro fs
      simp [markerStep, processMarkerEntry, h1, h2]

/-- Tree erasure never creates nodes. -/
theorem eraseTree_eq_or (t : CStr) (fs : FS) (q : CStr) :
    eraseTree t fs q = fs q ∨ eraseTree t fs q = none := by
  unfold eraseTree
  split
  · right; rfl
  · split
    · right; rfl
    · left; rfl

/-- Point erasure never creates nodes. -/
theorem erasePoint_eq_or (t : CStr) (fs : FS) (q : CStr) :
    erasePoint t fs q = fs q ∨ erasePoint t fs q = none := by
  unfold erasePoint
  split
  · right; rfl
  · left; rfl

/-- Opaque deletion never creates nodes. -/
theorem opqDel_eq_or (t : CStr) (fs : FS) (q : CStr) :
    opqDel t fs q = fs q ∨ opqDel t fs q = none := by
  unfold opqDel
  split
  · exact eraseTree_eq_or t fs q
  · left; rfl

/-- Whiteout deletion never creates nodes. -/
theorem whDel_eq_or (t : CStr) (fs : FS) (q : CStr) :
    whDel t fs q = fs q ∨ whDel t fs q = none := by
  unfold whDel
  split
  · exact eraseTree_eq_or t fs q
  · split
    · exact erasePoint_eq_or t fs q
    · left; rfl

/-- One scan iteration never creates nodes. -/
theorem markerStep_eq_or (r p : CStr) (fs : FS) (q : CStr) :
    markerStep r fs p q = fs q ∨ markerStep r fs p q = none := by
  rcases markerStep_shape r p with hid | ⟨t, hsh⟩ | ⟨t, hsh⟩
  · rw [hid]; left; rfl
  · rw [hsh]; exact opqDel_eq_or t fs q
  · rw [hsh]; exact whDel_eq_or t fs q

/-- Unfolding the scan fold one entry at a time. -/
theorem whFold_cons (r p : CStr) (rest : List CStr) (fs : FS) :
    whFold r (p :: rest) fs = whFold r rest (markerStep r fs p) := by
  simp [whFold]

/-- The whole scan never creates nodes. -/
theorem whFold_eq_or (r : CStr) :
    ∀ (L : List CStr) (fs : FS) (q : CStr),
      whFold r L fs q = fs q ∨ whFold r L fs q = none := by
  intro L
  induction L with
  | nil => intro fs q; left; rfl
  | cons p rest ih =>
    intro fs q
    rw [whFold_cons]
    rcases ih (markerStep r fs p) q with h | h
    · rcases markerStep_eq_or r p fs q with h2 | h2
      · left; rw [h, h2]
      · right; rw [h, h2]
    · right; exact h

/-- A node surviving the scan kept its original value. -/
theorem whFold_pin (r : CStr) (L : List CStr) (fs : FS) (q : CStr)
    (h : whFold r L fs q ≠ none) : whFold r L fs q = fs q := by
  rcases whFold_eq_or r L fs q with h2 | h2
  · exact h2
  · exact absurd h2 h

/-- A node surviving one scan iteration kept its original value. -/
theorem markerStep_pin (r p : CStr) (fs : FS) (q : CStr)
    (h : markerStep r fs p q ≠ none) : markerStep r fs p q = fs q := by
  rcases markerStep_eq_or r p fs q with h2 | h2
  · exact h2
  · exact absurd h2 h

/-- Tree erasure preserves filesystem consistency. -/
theorem consistent_eraseTree (t : CStr) (fs : FS) (h : consistentFS fs) :
    consistentFS (eraseTree t fs) := by
  intro a b hb hab
  unfold eraseTree at hb ⊢
  by_cases hbt : b = t
  · rw [if_pos hbt] at hb; exact absurd rfl hb
  · rw [if_neg hbt] at hb
    by_cases hbu : (t ++ ['/']).isPrefixOf b = true
    · rw [if_pos hbu] at hb; exact absurd rfl hb
    · rw [if_neg hbu] at hb
      have hfa : fs a = some Node.dir := h a b hb hab
      have hat : ¬ a = t := by
        intro he
        exact hbu (List.isPrefixOf_iff_prefix.mpr (he ▸ hab))
      have hau : ¬ (t ++ ['/']).isPrefixOf a = true := by
        intro hpa
        have h1 : (t ++ ['/']) <+: a := List.isPrefixOf_iff_prefix.mp hpa
        have h2 : a <+: b := (List.prefix_append a ['/']).trans hab
        exact hbu (List.isPrefixOf_iff_prefix.mpr (h1.trans h2))
      rw [if_neg hat, if_neg hau]
      exact hfa

/-- Point erasure of a file preserves filesystem consistency. -/
theorem consistent_erasePoint (t : CStr) (fs : FS) (hfile : fs t = some Node.file)
    (h : consistentFS fs) : consistentFS (erasePoint t fs) := by
  intro a b hb hab
  unfold erasePoint at hb ⊢
  by_cases hbt : b = t
  · rw [if_pos hbt] at hb; exact absurd rfl hb
  · rw [if_neg hbt] at hb
    have hfa : fs a = some Node.dir := h a b hb hab
    have hat : ¬ a = t := by
      intro he
      rw [he, hfile] at hfa
      cases hfa
    rw [if_neg hat]
    exact hfa

/-- Opaque deletion preserves filesystem consistency. -/
theorem consistent_opqDel (t : CStr) (fs : FS) (h : consistentFS fs) :
    consistentFS (opqDel t fs) := by
  unfold opqDel
  split
  · exact consistent_eraseTree t fs h
  · exact h

/-- Whiteout deletion preserves filesystem consistency. -/
theorem consistent_whDel (t : CStr) (fs : FS) (h : consistentFS fs) :
    consistentFS (whDel t fs) := by
  unfold whDel
  split
  · exact consistent_eraseTree t fs h
  · split
    · next hfile => exact consistent_erasePoint t fs hfile h
    · exact h

/-- One scan iteration preserves filesystem consistency. -/
theorem consistent_markerStep (r p : CStr) (fs : FS) (h : consistentFS fs) :
    consistentFS (markerStep r fs p) := by
  rcases markerStep_shape r p with hid | ⟨t, hsh⟩ | ⟨t, hsh⟩
  · rw [hid]; exact h
  · rw [hsh]; exact consistent_opqDel t fs h
  · rw [hsh]; exact consistent_whDel t fs h

/-- The whole scan preserves filesystem consistency. -/
theorem consistent_whFold (r : CStr) :
    ∀ (L : List CStr) (fs : FS), consistentFS fs → consistentFS (whFold r L fs) := by
  intro L
  induction L with
  | nil => intro fs h; exact h
  | cons p rest ih =>
    intro fs h
    rw [whFold_cons]
    exact ih _ (consistent_markerStep r p fs h)
/-- Closed form of the extraction pass at one path: the last write landing
there wins, otherwise the input value is kept. -/
theorem extractFold_eq_lastWrite (r : CStr) :
    ∀ (E : List TarEntry) (fs : FS) (q : CStr),
      extractFold r E fs q =
        match lastWriteAt r E q with
        | some nd => some nd
        | none => fs q := by
  intro E
  induction E with
  | nil => intro fs q; rfl
  | cons e rest ih =>
    intro fs q
    have hfold : extractFold r (e :: rest) fs = extractFold r rest (extractStep r fs e) := by
      simp [extractFold]
    rw [hfold, ih]
    show (match lastWriteAt r rest q with
          | some nd => some nd
          | none => extractStep r fs e q) =
        (match lastWriteAt r (e :: rest) q with
          | some nd => some nd
          | none => fs q)
    cases hl : lastWriteAt r rest q with
    | some nd => simp [lastWriteAt, hl]
    | none =>
      simp only [lastWriteAt, hl]
      by_cases hskip : skipEntry e
      · simp [extractStep, hskip]
      · by_cases heq : effPath r e.pathname = q
        · simp [extractStep, hskip, heq, writeEntryFS]
        · simp [extractStep, hskip, heq, writeEntryFS]
          intro hq2
          exact absurd hq2.symm heq

/-- Core of the idempotence argument: rerunning the whiteout scan on the
filesystem produced by a full layer application leaves every path that no
extraction write landed on unchanged.  `fs1` is the filesystem after the
first scan, `B` the one after the first extraction; `s1` and `s2` are the
states of the first and second scan as they advance through the entries. -/
theorem whFold_second_pass_eq (r : CStr) (B fs1 : FS) (q : CStr)
    (hcons : consistentFS fs1) (hq : fs1 q ≠ none) :
    ∀ (M : List CStr) (s1 s2 : FS),
      whFold r M s1 = fs1 →
      (∀ pp, s2 pp ≠ none → s2 pp = B pp) →
      s2 q = B q →
      B q = fs1 q →
      whFold r M s2 q = s2 q := by
  intro M
  induction M with
  | nil =>
    intro s1 s2 _ _ _ _
    rfl
  | cons e M2 ih =>
    intro s1 s2 hrun1 hH2 hs2q hBq
    rw [whFold_cons] at hrun1 ⊢
    have hpin1 : ∀ x, fs1 x ≠ none → markerStep r s1 e x = fs1 x := by
      intro x hx
      rw [← hrun1] at hx
      have h1 := whFold_pin r M2 (markerStep r s1 e) x hx
      rw [← hrun1, h1]
    have hpin0 : ∀ x, fs1 x ≠ none → s1 x = fs1 x := by
      intro x hx
      have h1 := hpin1 x hx
      have h2 : markerStep r s1 e x ≠ none := by rw [h1]; exact hx
      rw [← h1, markerStep_pin r e s1 x h2]
    have hstep_q : markerStep r s2 e q = s2 q := by
      rcases markerStep_shape r e with hid | ⟨t, hsh⟩ | ⟨t, hsh⟩
      · rw [hid]
      · rw [hsh]
        unfold opqDel
        by_cases hfire : s2 t = some Node.dir
        · rw [if_pos hfire]
          unfold eraseTree
          by_cases hqt : q = t
          · exfalso
            have hs2qd : s2 q = some Node.dir := hqt ▸ hfire
            have hfs1q : fs1 q = some Node.dir := by
              rw [← hBq, ← hs2q, hs2qd]
            have hs1q : s1 q = some Node.dir := by
              rw [hpin0 q hq, hfs1q]
            have hnone : markerStep r s1 e q = none := by
              rw [hsh]
              unfold opqDel
              rw [if_pos (hqt ▸ hs1q)]
              unfold eraseTree
              rw [if_pos hqt]
            have := hpin1 q hq
            rw [hnone] at this
            exact hq this.symm
          · rw [if_neg hqt]
            by_cases hun : (t ++ ['/']).isPrefixOf q = true
            · exfalso
              have hpre : (t ++ ['/']) <+: q := List.isPrefixOf_iff_prefix.mp hun
              have hfs1t : fs1 t = some Node.dir := hcons t q hq hpre
              have hs1t : s1 t = some Node.dir := by
                rw [hpin0 t (by rw [hfs1t]; exact fun hh => by cases hh), hfs1t]
              have hnone : markerStep r s1 e q = none := by
                rw [hsh]
                unfold opqDel
                rw [if_pos hs1t]
                unfold eraseTree
                rw [if_neg hqt, if_pos hun]
              have := hpin1 q hq
              rw [hnone] at this
              exact hq this.symm
            · rw [if_neg hun]
        · rw [if_neg hfire]
      · rw [hsh]
        unfold whDel
        by_cases hfire : s2 t = some Node.dir
        · rw [if_pos hfire]
          unfold eraseTree
          by_cases hqt : q = t
          · exfalso
            have hs2qd : s2 q = some Node.dir := hqt ▸ hfire
            have hfs1q : fs1 q = some Node.dir := by
              rw [← hBq, ← hs2q, hs2qd]
            have hs1q : s1 q = some Node.dir := by
              rw [hpin0 q hq, hfs1q]
            have hnone : markerStep r s1 e q = none := by
              rw [hsh]
              unfold whDel
              rw [if_pos (hqt ▸ hs1q)]
              unfold eraseTree
              rw [if_pos hqt]
            have := hpin1 q hq
            rw [hnone] at this
            exact hq this.symm
          · rw [if_neg hqt]
            by_cases hun : (t ++ ['/']).isPrefixOf q = true
            · exfalso
              have hpre : (t ++ ['/']) <+: q := List.isPrefixOf_iff_prefix.mp hun
              have hfs1t : fs1 t = some Node.dir := hcons t q hq hpre
              have hs1t : s1 t = some Node.dir := by
                rw [hpin0 t (by rw [hfs1t]; exact fun hh => by cases hh), hfs1t]
              have hnone : markerStep r s1 e q = none := by
                rw [hsh]
                unfold whDel
                rw [if_pos hs1t]
                unfold eraseTree
                rw [if_neg hqt, if_pos hun]
              have := hpin1 q hq
              rw [hnone] at this
              exact hq this.symm
            · rw [if_neg hun]
        · rw [if_neg hfire]
          by_cases hfireF : s2 t = some Node.file
          · rw [if_pos hfireF]
            unfold erasePoint
            by_cases hqt : q = t
            · exfalso
              have hs2qf : s2 q = some Node.file := hqt ▸ hfireF
              have hfs1q : fs1 q = some Node.file := by
                rw [← hBq, ← hs2q, hs2qf]
              have hs1q : s1 q = some Node.file := by
                rw [hpin0 q hq, hfs1q]
              have hs1qd : ¬ s1 t = some Node.dir := by
                rw [← hqt, hs1q]
                intro hh
                cases hh
              have hnone : markerStep r s1 e q = none := by
                rw [hsh]
                unfold whDel
                rw [if_neg hs1qd, if_pos (hqt ▸ hs1q)]
                unfold erasePoint
                rw [if_pos hqt]
              have := hpin1 q hq
              rw [hnone] at this
              exact hq this.symm
            · rw [if_neg hqt]
          · rw [if_neg hfireF]
    have hH2n : ∀ pp, markerStep r s2 e pp ≠ none → markerStep r s2 e pp = B pp := by
      intro pp hpp
      have h1 := markerStep_pin r e s2 pp hpp
      rw [h1] at hpp ⊢
      exact hH2 pp hpp
    have hs2qn : markerStep r s2 e q = B q := by rw [hstep_q, hs2q]
    rw [← hstep_q]
    exact ih (markerStep r s1 e) (markerStep r s2 e) hrun1 hH2n hs2qn hBq

/-- General idempotence of the no-failure layer application under a
consistent starting filesystem. -/
theorem applyLayerNF_idem_aux (layer : List (CStr × FType)) (r : CStr) (fs : FS)
    (hcons : consistentFS fs) (q : CStr) :
    applyLayerNF layer r (applyLayerNF layer r fs) q = applyLayerNF layer r fs q := by
  unfold applyLayerNF
  set paths := layer.map Prod.fst with hpaths
  set ents := layer.map mkEntry with hents
  set fs1 := whFold r paths fs with hfs1
  set B := extractFold r ents fs1 with hB
  cases hl : lastWriteAt r ents q with
  | some nd =>
    rw [extractFold_eq_lastWrite, hl, hB, extractFold_eq_lastWrite, hl]
  | none =>
    have hBq : B q = fs1 q := by rw [hB, extractFold_eq_lastWrite, hl]
    rw [extractFold_eq_lastWrite, hl]
    show whFold r paths B q = B q
    by_cases hq : fs1 q = none
    · have hBqn : B q = none := by rw [hBq, hq]
      rcases whFold_eq_or r paths B q with h | h
      · rw [h]
      · rw [h, hBqn]
    · exact whFold_second_pass_eq r B fs1 q (consistent_whFold r paths fs hcons) hq
        paths fs B rfl (fun pp _ => rfl) rfl hBq
/-- Paths absent before the scan are absent after it. -/
theorem whFold_none (r : CStr) (L : List CStr) (fs : FS) (q : CStr)
    (h : fs q = none) : whFold r L fs q = none := by
  rcases whFold_eq_or r L fs q with h2 | h2
  · rw [h2, h]
  · exact h2

/-- If no non-skipped entry writes at a path, no extraction write lands
there. -/
theorem lastWriteAt_eq_none (r : CStr) :
    ∀ (E : List TarEntry) (q : CStr),
      (∀ e ∈ E, skipEntry e = false → effPath r e.pathname ≠ q) →
      lastWriteAt r E q = none := by
  intro E
  induction E with
  | nil => intro q _; rfl
  | cons e rest ih =>
    intro q h
    have hrest := ih q (fun x hx => h x (List.mem_cons_of_mem _ hx))
    simp only [lastWriteAt, hrest]
    by_cases hskip : skipEntry e
    · simp [hskip]
    · have hne := h e (List.mem_cons_self _ _) (by simpa using hskip)
      simp [hskip, hne]

/-- Accepting `is_dir` answers are exactly directories. -/
theorem is_dir_eq_zero (fs : FS) (p : CStr) :
    (is_dir fs p = 0) = (fs p = some Node.dir) := by
  unfold is_dir
  by_cases h : fs p = some Node.dir
  · simp [h]
  · simp [h]

/-- Accepting `is_file` answers are exactly files. -/
theorem is_file_eq_zero (fs : FS) (p : CStr) :
    (is_file fs p = 0) = (fs p = some Node.file) := by
  unfold is_file
  by_cases h : fs p = some Node.file
  · simp [h]
  · simp [h]

/-- A classified opaque marker is processed into the opaque disposition on
the directory part of the marker (prefix before the last slash). -/
theorem processMarkerEntry_opq_eq (denied : CStr → Bool) (r p : CStr) (i : Nat) (fs : FS)
    (hopq : (strstrIdx opqPat p).isSome = true)
    (hi : strrchrIdx '/' p = some i) :
    processMarkerEntry denied r fs p =
      .ok (opqDisposition denied fs (r ++ ['/'] ++ p.take i)) := by
  unfold processMarkerEntry
  rw [if_pos hopq]
  unfold apply_opaque
  simp only [hi]
  unfold opqDisposition
  simp only [is_dir_eq_zero]
  split
  · rfl
  · rfl

/-- A classified whiteout marker is processed into the whiteout disposition
on the pathname with its first `.wh.` removed. -/
theorem processMarkerEntry_wh_eq (denied : CStr → Bool) (r p : CStr) (tp : Nat) (fs : FS)
    (hopq : (strstrIdx opqPat p).isSome = false)
    (hwh : (strstrIdx whSlashPat p).isSome = true)
    (htp : strstrIdx whPat p = some tp) :
    processMarkerEntry denied r fs p =
      .ok (whDisposition denied fs (r ++ ['/'] ++ (p.take tp ++ p.drop (tp + 4)))) := by
  unfold processMarkerEntry
  rw [if_neg (by simp [hopq]), if_pos hwh]
  unfold apply_whiteout
  simp only [htp]
  unfold whDisposition
  simp only [is_dir_eq_zero, is_file_eq_zero]
  split
  · rfl
  · split
    · rfl
    · rfl

/-- Under `noDenied` the whiteout disposition reports 0 and acts as
`whDel`. -/
theorem whDisposition_noDenied (fs : FS) (t : CStr) :
    whDisposition noDenied fs t = (0, whDel t fs) := by
  unfold whDisposition whDel s_rmdir unlink noDenied
  split
  · rfl
  · split
    · rfl
    · rfl

/-- Under `noDenied` the opaque disposition reports 0 and acts as
`opqDel`. -/
theorem opqDisposition_noDenied (fs : FS) (t : CStr) :
    opqDisposition noDenied fs t = (0, opqDel t fs) := by
  unfold opqDisposition opqDel s_rmdir noDenied
  split
  · rfl
  · rfl

/-- A well-formed marker pathname contains the `/.wh.` pattern. -/
theorem whSlash_isSome_marker (d n : CStr) :
    (strstrIdx whSlashPat (d ++ ['/'] ++ whPat ++ n)).isSome = true := by
  have h1 : whSlashPat = ['/'] ++ whPat := by decide
  have h2 : d ++ ['/'] ++ whPat ++ n = d ++ (['/'] ++ whPat) ++ n := by
    simp [List.append_assoc]
  have hinf : whSlashPat <:+: (d ++ ['/'] ++ whPat ++ n) := by
    rw [h1]
    exact ⟨d, n, by simp⟩
  exact (strstrIdx_isSome_iff _ _).mpr hinf

/-- The prefix kept by stripping the base of a marker. -/
theorem take_marker (d n : CStr) :
    (d ++ ['/'] ++ whPat ++ n).take (d.length + 1) = d ++ ['/'] := by
  have h1 : d ++ ['/'] ++ whPat ++ n = (d ++ ['/']) ++ (whPat ++ n) := by
    simp [List.append_assoc]
  have h2 : d.length + 1 = (d ++ ['/']).length := by simp
  rw [h1, h2, List.take_left]

/-- The suffix kept by stripping the base of a marker. -/
theorem drop_marker (d n : CStr) :
    (d ++ ['/'] ++ whPat ++ n).drop (d.length + 1 + 4) = n := by
  have hw : whPat.length = 4 := by decide
  have h1 : d ++ ['/'] ++ whPat ++ n = ((d ++ ['/']) ++ whPat) ++ n := rfl
  have h2 : d.length + 1 + 4 = ((d ++ ['/']) ++ whPat).length := by
    simp [hw]
  rw [h1, h2, List.drop_left]

/-- The filesystem effect of the scan iteration on a well-formed whiteout
marker `d/.wh.n` with a clean directory part is the whiteout disposition on
the sibling `d/n`. -/
theorem markerStep_marker_eq (r d n : CStr) (fs : FS)
    (hd : strstrIdx whPat d = none)
    (hopq : (strstrIdx opqPat (d ++ ['/'] ++ whPat ++ n)).isSome = false) :
    markerStep r fs (d ++ ['/'] ++ whPat ++ n) =
      whDel (r ++ ['/'] ++ (d ++ ['/'] ++ n)) fs := by
  have htp := strstrIdx_whPat_marker d n hd
  have hpe := processMarkerEntry_wh_eq noDenied r (d ++ ['/'] ++ whPat ++ n)
    (d.length + 1) fs hopq (whSlash_isSome_marker d n) htp
  rw [whDisposition_noDenied] at hpe
  unfold markerStep
  rw [hpe]
  rw [take_marker, drop_marker]
/-- The scan fold splits over list append. -/
theorem whFold_append (r : CStr) (A B : List CStr) (fs : FS) :
    whFold r (A ++ B) fs = whFold r B (whFold r A fs) := by
  simp [whFold, List.foldl_append]

/-- Every return (as opposed to abort) of `extract_tar` carries status 0:
`retval` is initialized to 0 and never reassigned. -/
theorem extract_tar_ret_zero (openOk chdirOk : Bool) (E : List TarEntry)
    (r : CStr) (fs : FS) (rv : Int) (fs1 : FS)
    (h : extract_tar openOk chdirOk E r fs = .ok (rv, fs1)) : rv = 0 := by
  unfold extract_tar at h
  split at h
  · exact Except.noConfusion h
  · split at h
    · exact Except.noConfusion h
    · split at h
      · exact Except.noConfusion h
      · have h2 := Except.ok.inj h
        exact (congrArg Prod.fst h2).symm

/-- The extraction-failure branch of `main` is unreachable. -/
theorem main_run_not_extract_err (cfg : Config) :
    (main_run cfg).1 ≠ Outcome.abortExtractErr := by
  unfold main_run
  split
  · intro hh; cases hh
  · split
    · intro hh; cases hh
    · split
      · intro hh; cases hh
      · split
        · intro hh; cases hh
        · split
          · intro hh; cases hh
          · split
            · intro hh; cases hh
            · split
              · intro hh; cases hh
              · next heq =>
                split
                · next hne =>
                  exfalso
                  next rv fs2 =>
                    exact hne (extract_tar_ret_zero _ _ _ _ _ _ _ heq)
                · intro hh; cases hh
/-- Claim C1 (code bug shown on the code): the program performs no
confinement of computed filesystem paths under the rootfs.  With rootfs
`/r`, the whiteout marker `../.wh.x` causes the deletion of `/r/../x`, a
path that normalizes outside the rootfs, and extraction of the relative
entry `../evil` (and of any absolute entry, e.g. `/etc/passwd`) writes
outside the rootfs as well, contradicting the specified security contract
that `..` traversal and absolute paths must be rejected. -/
theorem c1_path_escape :
    whObserve noDenied true ["../.wh.x".data] "/r".data
        (fun q => if q = "/r/../x".data then some Node.file else none) "/r/../x".data
      = some (0, none)
    ∧ confinedUnder "/r".data "/r/../x".data = false
    ∧ exObserve true true [⟨"../evil".data, FType.reg, 0, 0, 0, 0, 0⟩] "/r".data
        (fun _ => none) "/r/../evil".data = some (0, some Node.file)
    ∧ confinedUnder "/r".data "/r/../evil".data = false
    ∧ effPath "/r".data "/etc/passwd".data = "/etc/passwd".data
    ∧ confinedUnder "/r".data "/etc/passwd".data = false := by
  exact ⟨by decide, by decide, by decide, by decide, by decide, by decide⟩

/-- Claim C3 counterexample: the entry `a/.wh..wh..opqX`, whose base name
`.wh..wh..opqX` is not exactly `.wh..wh..opq`, is nevertheless treated as an
opaque marker (classification is by substring search), and the directory
`/r/a` is removed. -/
theorem c3_counterexample :
    "a/.wh..wh..opqX".data.drop 2 ≠ ".wh..wh..opq".data
    ∧ whObserve noDenied true ["a/.wh..wh..opqX".data] "/r".data
        (fun q => if q = "/r/a".data then some Node.dir
                  else if q = "/r/a/f".data then some Node.file else none)
        "/r/a".data = some (0, none) := by
  exact ⟨by decide, by decide⟩

/-- Claim C3 (amended): every entry whose pathname contains the substring
`/.wh..wh..opq` (not necessarily as its exact base name) is processed as an
opaque marker: the scanner takes the prefix before the pathname's last
slash, resolves it under the rootfs, removes it recursively if it is an
existing directory and otherwise does nothing, always reporting status 0
(no error on a missing directory). -/
theorem c3_opaque_disposition (denied : CStr → Bool) (r p : CStr) (fs : FS)
    (hopq : (strstrIdx opqPat p).isSome = true) :
    ∃ i, strrchrIdx '/' p = some i ∧
      processMarkerEntry denied r fs p =
        .ok (opqDisposition denied fs (r ++ ['/'] ++ p.take i)) := by
  have hm : ('/' : Char) ∈ p :=
    (List.IsInfix.subset ((strstrIdx_isSome_iff _ _).mp hopq)) (by decide)
  obtain ⟨i, hi⟩ := Option.isSome_iff_exists.mp ((strrchrIdx_isSome_iff _ _).mpr hm)
  exact ⟨i, hi, processMarkerEntry_opq_eq denied r p i fs hopq hi⟩

/-- Claim C3 witness: concrete run of the amended claim on `a/.wh..wh..opq`. -/
theorem c3_witness :
    processMarkerEntry noDenied "/r".data (fun _ => none) "a/.wh..wh..opq".data
      = .ok (opqDisposition noDenied (fun _ => none) ("/r".data ++ ['/'] ++ "a".data)) := by
  obtain ⟨i, hi, h⟩ := c3_opaque_disposition noDenied "/r".data "a/.wh..wh..opq".data
    (fun _ => none) (by decide)
  have h2 : strrchrIdx '/' "a/.wh..wh..opq".data = some 1 := by decide
  rw [h2] at hi
  have h3 : i = 1 := (Option.some.inj hi).symm
  rw [h3] at h
  have h4 : "a/.wh..wh..opq".data.take 1 = "a".data := by decide
  rw [h4] at h
  exact h

/-- Claim C4 counterexample: the marker `a/.wh.b/.wh.c` is classified as a
whiteout marker and, by the claim, replacing the last `.wh.`-tagged segment
would delete the sibling `/r/a/.wh.b/c`; the code instead strips the FIRST
`.wh.` occurrence (targeting `/r/a/b/.wh.c`), so the file `/r/a/.wh.b/c`
survives the scan. -/
theorem c4_counterexample :
    whObserve noDenied true ["a/.wh.b/.wh.c".data] "/r".data
      (fun q => if q = "/r/a/.wh.b/c".data then some Node.file else none)
      "/r/a/.wh.b/c".data = some (0, some Node.file) := by
  decide

/-- Claim C4 (amended): for every entry processed in the whiteout branch of
the scanner (pathname contains `/.wh.` and is not classified opaque), the
`strstr` search for `.wh.` succeeds at the index of its first occurrence and
the computed target is the pathname with that first occurrence removed,
resolved under the rootfs; an existing directory there is removed
recursively, an existing regular file (or symlink) is unlinked, and
otherwise the entry is a no-op with status 0. -/
theorem c4_whiteout_disposition (denied : CStr → Bool) (r p : CStr) (fs : FS)
    (hopq : (strstrIdx opqPat p).isSome = false)
    (hwh : (strstrIdx whSlashPat p).isSome = true) :
    ∃ tp, strstrIdx whPat p = some tp ∧
      processMarkerEntry denied r fs p =
        .ok (whDisposition denied fs (r ++ ['/'] ++ (p.take tp ++ p.drop (tp + 4)))) := by
  have hInf : whPat <:+: p := by
    have h4 : whPat <:+: whSlashPat := by decide
    exact h4.trans ((strstrIdx_isSome_iff _ _).mp hwh)
  obtain ⟨tp, htp⟩ := Option.isSome_iff_exists.mp ((strstrIdx_isSome_iff _ _).mpr hInf)
  exact ⟨tp, htp, processMarkerEntry_wh_eq denied r p tp fs hopq hwh htp⟩

/-- Claim C4 witness: concrete run of the amended claim on `a/.wh.b/.wh.c`,
a whiteout-branch entry whose directory part itself contains `.wh.`; the
first `.wh.` occurrence is at index 2 and the target is the stripped
pathname `a/b/.wh.c` resolved under the rootfs. -/
theorem c4_witness :
    processMarkerEntry noDenied "/r".data (fun _ => none) "a/.wh.b/.wh.c".data
      = .ok (whDisposition noDenied (fun _ => none)
          ("/r".data ++ ['/'] ++
            ("a/.wh.b/.wh.c".data.take 2 ++ "a/.wh.b/.wh.c".data.drop (2 + 4)))) := by
  obtain ⟨tp, htp, h⟩ := c4_whiteout_disposition noDenied "/r".data
    "a/.wh.b/.wh.c".data (fun _ => none) (by decide) (by decide)
  have h2 : strstrIdx whPat "a/.wh.b/.wh.c".data = some 2 := by decide
  rw [h2] at htp
  have h3 : tp = 2 := (Option.some.inj htp).symm
  rw [h3] at h
  exact h

/-- Claim C5 counterexample: the top-level marker entry `.wh.foo` contains
`.wh.` in its path, yet it is extracted (an object is created for it),
because the code's skip test searches for `/.wh.` with a leading slash. -/
theorem c5_counterexample :
    (strstrIdx whPat ".wh.foo".data).isSome = true
    ∧ exObserve true true [⟨".wh.foo".data, FType.reg, 0, 0, 0, 0, 0⟩] "/r".data
        (fun _ => none) "/r/.wh.foo".data = some (0, some Node.file) := by
  exact ⟨by decide, by decide⟩

/-- Claim C5 (amended): every entry whose pathname contains `/.wh.` (the
`.wh.` tag immediately preceded by a slash) and every entry of socket,
character-device, block-device or FIFO type is skipped by the extractor: no
filesystem object is created for it. -/
theorem c5_skip_entries (r : CStr) (fs : FS) (e : TarEntry)
    (h : (strstrIdx whSlashPat e.pathname).isSome = true ∨ specialType e.ftype = true) :
    skipEntry e = true ∧ extractStep r fs e = fs := by
  have hs : skipEntry e = true := by
    rcases h with h | h
    · simp [skipEntry, h]
    · simp [skipEntry, h]
  exact ⟨hs, by simp [extractStep, hs]⟩

/-- Claim C5 witness: a socket entry is skipped. -/
theorem c5_witness :
    skipEntry (⟨"tmp/socket1".data, FType.sock, 0, 0, 0, 0, 0⟩ : TarEntry) = true
    ∧ extractStep "/r".data (fun _ => none)
        (⟨"tmp/socket1".data, FType.sock, 0, 0, 0, 0, 0⟩ : TarEntry) = (fun _ => none) :=
  c5_skip_entries "/r".data (fun _ => none)
    (⟨"tmp/socket1".data, FType.sock, 0, 0, 0, 0, 0⟩ : TarEntry) (Or.inr (by decide))
/-- Claim C2 counterexample: for the marker `c.wh.d/.wh.x` (the directory
part contains `.wh.`), the pre-existing file `/r/c.wh.d/x` still exists
after the whiteout scan reports success, because `apply_whiteout` strips the
first `.wh.` occurrence and targets `/r/cd/.wh.x` instead. -/
theorem c2_counterexample :
    whObserve noDenied true ["c.wh.d/.wh.x".data] "/r".data
      (fun q => if q = "/r/c.wh.d/x".data then some Node.file else none)
      "/r/c.wh.d/x".data = some (0, some Node.file) := by
  decide

/-- Claim C2 (amended): for every archive containing a whiteout marker
`d/.wh.n` whose directory part `d` does not contain `.wh.` and which is not
classified as opaque, with a pre-existing regular file at `rootfs/d/n`,
`apply_whiteouts` (no deletion failures) reports success and afterwards the
file no longer exists; the marker entry itself is skipped by the extractor;
and the extraction pass leaves the path absent provided no other non-skipped
entry of the archive writes to it. -/
theorem c2_whiteout_removes_file
    (d n r : CStr) (ents E1 E2 : List TarEntry) (me : TarEntry) (fs : FS)
    (hsplit : ents = E1 ++ me :: E2)
    (hm : me.pathname = d ++ ['/'] ++ whPat ++ n)
    (hd : strstrIdx whPat d = none)
    (hopq : (strstrIdx opqPat me.pathname).isSome = false)
    (hfile : fs (r ++ ['/'] ++ (d ++ ['/'] ++ n)) = some Node.file)
    (hnorec : ∀ e ∈ ents, skipEntry e = false →
      effPath r e.pathname ≠ r ++ ['/'] ++ (d ++ ['/'] ++ n)) :
    apply_whiteouts noDenied true (ents.map TarEntry.pathname) r fs =
        .ok (0, whFold r (ents.map TarEntry.pathname) fs)
    ∧ whFold r (ents.map TarEntry.pathname) fs (r ++ ['/'] ++ (d ++ ['/'] ++ n)) = none
    ∧ skipEntry me = true
    ∧ extractFold r ents (whFold r (ents.map TarEntry.pathname) fs)
        (r ++ ['/'] ++ (d ++ ['/'] ++ n)) = none := by
  have hgone : whFold r (ents.map TarEntry.pathname) fs
      (r ++ ['/'] ++ (d ++ ['/'] ++ n)) = none := by
    rw [hsplit]
    rw [List.map_append, List.map_cons]
    rw [whFold_append]
    rw [whFold_cons]
    rw [hm]
    rw [markerStep_marker_eq r d n _ hd (hm ▸ hopq)]
    apply whFold_none
    rcases whFold_eq_or r (E1.map TarEntry.pathname) fs (r ++ ['/'] ++ (d ++ ['/'] ++ n))
      with hv | hv
    · rw [hfile] at hv
      unfold whDel
      rw [if_neg (by rw [hv]; intro hh; cases hh), if_pos hv]
      unfold erasePoint
      rw [if_pos rfl]
    · unfold whDel
      rw [if_neg (by rw [hv]; intro hh; cases hh),
        if_neg (by rw [hv]; intro hh; cases hh), hv]
  refine ⟨apply_whiteouts_noDenied r (ents.map TarEntry.pathname) fs, hgone, ?_, ?_⟩
  · unfold skipEntry
    rw [hm, whSlash_isSome_marker d n]
    rfl
  · rw [extractFold_eq_lastWrite, lastWriteAt_eq_none r ents _ hnorec]
    exact hgone

/-- Claim C2 witness: concrete run with marker `a/.wh.x` and pre-existing
file `/r/a/x`; after the scan the file is gone. -/
theorem c2_witness :
    whFold "/r".data
        ([(⟨"a".data ++ ['/'] ++ whPat ++ "x".data, FType.reg, 0, 0, 0, 0, 0⟩ :
          TarEntry)].map TarEntry.pathname)
        (fun q => if q = "/r".data ++ ['/'] ++ ("a".data ++ ['/'] ++ "x".data)
                  then some Node.file else none)
        ("/r".data ++ ['/'] ++ ("a".data ++ ['/'] ++ "x".data)) = none :=
  (c2_whiteout_removes_file "a".data "x".data "/r".data
    [⟨"a".data ++ ['/'] ++ whPat ++ "x".data, FType.reg, 0, 0, 0, 0, 0⟩]
    [] []
    ⟨"a".data ++ ['/'] ++ whPat ++ "x".data, FType.reg, 0, 0, 0, 0, 0⟩
    (fun q => if q = "/r".data ++ ['/'] ++ ("a".data ++ ['/'] ++ "x".data)
              then some Node.file else none)
    rfl rfl (by decide) (by decide) (by simp) (by decide)).2.1

/-- Claim C6 counterexample: the opaque marker `a/.wh..wh..opq` whose target
directory `/r/a` is denied (deletion fails) does not stop the scan: the
scan continues, processes the later whiteout `d/.wh.b` (deleting `/r/d/b`)
and reports overall success, because `apply_opaque` discards the `s_rmdir`
status. -/
theorem c6_counterexample :
    whObserve (fun q => q == "/r/a".data) true
        ["a/.wh..wh..opq".data, "d/.wh.b".data] "/r".data
        (fun q => if q = "/r/a".data then some Node.dir
                  else if q = "/r/d/b".data then some Node.file else none)
        "/r/a".data = some (0, some Node.dir)
    ∧ whObserve (fun q => q == "/r/a".data) true
        ["a/.wh..wh..opq".data, "d/.wh.b".data] "/r".data
        (fun q => if q = "/r/a".data then some Node.dir
                  else if q = "/r/d/b".data then some Node.file else none)
        "/r/d/b".data = some (0, none) := by
  exact ⟨by decide, by decide⟩

/-- Claim C6 (amended): the scan loop stops at and returns the first nonzero
status reported by a marker entry, and whiteout deletions propagate their
failure status; opaque marker processing, however, always reports status 0
even when its deletion fails (`apply_opaque` discards the `s_rmdir`
result), so opaque deletion failures do not stop the scan. -/
theorem c6_error_propagation :
    (∀ (denied : CStr → Bool) (r p : CStr) (fs : FS),
      (strstrIdx opqPat p).isSome = true →
      ∃ fs', processMarkerEntry denied r fs p = .ok (0, fs'))
    ∧ (∀ (denied : CStr → Bool) (r p : CStr) (rest : List CStr) (fs fs1 : FS) (c : Int),
      processMarkerEntry denied r fs p = .ok (c, fs1) → c ≠ 0 →
      apply_whiteouts_loop denied r (p :: rest) fs = .ok (c, fs1)) := by
  constructor
  · intro denied r p fs hopq
    have hm : ('/' : Char) ∈ p :=
      (List.IsInfix.subset ((strstrIdx_isSome_iff _ _).mp hopq)) (by decide)
    obtain ⟨i, hi⟩ := Option.isSome_iff_exists.mp ((strrchrIdx_isSome_iff _ _).mpr hm)
    refine ⟨(opqDisposition denied fs (r ++ ['/'] ++ p.take i)).2, ?_⟩
    rw [processMarkerEntry_opq_eq denied r p i fs hopq hi]
    rfl
  · intro denied r p rest fs fs1 c hpe hc
    simp [apply_whiteouts_loop, hpe, hc]

/-- Claim C6 witness: a failing whiteout deletion stops the scan and its
status is returned. -/
theorem c6_witness :
    apply_whiteouts_loop (fun q => q == "/r/q/z".data) "/r".data
        ["q/.wh.z".data, "w/.wh.v".data]
        (fun q => if q = "/r/q/z".data then some Node.dir else none)
      = .ok (-1, fun q => if q = "/r/q/z".data then some Node.dir else none) :=
  c6_error_propagation.2 (fun q => q == "/r/q/z".data) "/r".data "q/.wh.z".data
    ["w/.wh.v".data]
    (fun q => if q = "/r/q/z".data then some Node.dir else none)
    (fun q => if q = "/r/q/z".data then some Node.dir else none)
    (-1) rfl (by decide)
/-- Claim C7: the orchestrator runs the phases in strict order: when the
whiteout phase returns a nonzero status, `main` exits through the
whiteout-error abort (status 255) with the filesystem as the scan left it
and the extraction phase is never invoked; conversely, any outcome in which
extraction was reached implies the whiteout phase returned 0. -/
theorem c7_phase_order (cfg : Config) (r : CStr) (c : Int) (fs1 : FS)
    (hargc : cfg.argc = 2)
    (hreg : cfg.rootfsReg = some r)
    (hdir : cfg.rootfsIsDir = true)
    (htar : cfg.tarIsFile = true)
    (hwh : apply_whiteouts cfg.denied cfg.whOpenOk (cfg.entries.map TarEntry.pathname)
      r cfg.fs = .ok (c, fs1)) :
    (c ≠ 0 → main_run cfg = (Outcome.abortWhiteoutErr, fs1)
      ∧ Outcome.exitCode Outcome.abortWhiteoutErr = 255)
    ∧ ((main_run cfg).1 = Outcome.success ∨ (main_run cfg).1 = Outcome.abortInsideExtract
        ∨ (main_run cfg).1 = Outcome.abortExtractErr → c = 0) := by
  by_cases hc : c = 0
  · constructor
    · intro hne
      exact absurd hc hne
    · intro _
      exact hc
  · have hmain : main_run cfg = (Outcome.abortWhiteoutErr, fs1) := by
      simp [main_run, hargc, hreg, hdir, htar, hwh, hc]
    constructor
    · intro _
      exact ⟨hmain, rfl⟩
    · intro hor
      rw [hmain] at hor
      rcases hor with h | h | h <;> exact Outcome.noConfusion h

/-- Claim C7 witness: a failing whiteout scan (archive open failure, status
1) aborts through the whiteout-error branch with the filesystem untouched. -/
theorem c7_witness :
    main_run ⟨2, some "/r".data, true, true, false, true, true, noDenied, [],
        fun _ => none⟩
      = (Outcome.abortWhiteoutErr, fun _ => none) :=
  ((c7_phase_order ⟨2, some "/r".data, true, true, false, true, true, noDenied, [],
      fun _ => none⟩ "/r".data 1 (fun _ => none)
    rfl rfl rfl rfl rfl).1 (by decide)).1

/-- Claim C8: invoking the program with a tar file path that is not an
existing regular file never mutates the filesystem and always exits with
status 255. -/
theorem c8_missing_tar (cfg : Config) (htar : cfg.tarIsFile = false) :
    (main_run cfg).2 = cfg.fs ∧ (main_run cfg).1.exitCode = 255
      ∧ (main_run cfg).1 ≠ Outcome.success := by
  unfold main_run
  split
  · exact ⟨rfl, rfl, fun hh => Outcome.noConfusion hh⟩
  · split
    · exact ⟨rfl, rfl, fun hh => Outcome.noConfusion hh⟩
    · split
      · exact ⟨rfl, rfl, fun hh => Outcome.noConfusion hh⟩
      · rw [if_pos (show ¬ (cfg.tarIsFile = true) by simp [htar])]
        exact ⟨rfl, rfl, fun hh => Outcome.noConfusion hh⟩

/-- Claim C8 witness: concrete invocation with a missing tar file. -/
theorem c8_witness :
    (main_run ⟨2, some "/r".data, true, false, true, true, true, noDenied, [],
        fun _ => none⟩).2 = (fun _ => none : FS)
    ∧ (main_run ⟨2, some "/r".data, true, false, true, true, true, noDenied, [],
        fun _ => none⟩).1.exitCode = 255
    ∧ (main_run ⟨2, some "/r".data, true, false, true, true, true, noDenied, [],
        fun _ => none⟩).1 ≠ Outcome.success :=
  c8_missing_tar ⟨2, some "/r".data, true, false, true, true, true, noDenied, [],
    fun _ => none⟩ rfl

/-- Claim C9: full layer application on the success path (no deletion
failures, intact archive) is idempotent on every consistent starting
filesystem: applying the same layer twice yields the same tree as applying
it once. -/
theorem c9_layer_idempotent (layer : List (CStr × FType)) (r : CStr) (fs : FS)
    (hcons : consistentFS fs) (q : CStr) :
    applyLayerNF layer r (applyLayerNF layer r fs) q = applyLayerNF layer r fs q :=
  applyLayerNF_idem_aux layer r fs hcons q

/-- Claim C9 witness: concrete double application of a layer with a whiteout
and a recreating entry. -/
theorem c9_witness :
    applyLayerNF [("a/.wh.b".data, FType.reg), ("a/b".data, FType.reg)] "/r".data
        (applyLayerNF [("a/.wh.b".data, FType.reg), ("a/b".data, FType.reg)] "/r".data
          (fun _ => none)) "/r/a/b".data
      = applyLayerNF [("a/.wh.b".data, FType.reg), ("a/b".data, FType.reg)] "/r".data
          (fun _ => none) "/r/a/b".data :=
  c9_layer_idempotent [("a/.wh.b".data, FType.reg), ("a/b".data, FType.reg)] "/r".data
    (fun _ => none) (fun _ _ h _ => absurd rfl h) "/r/a/b".data

/-- Claim C10: `extract_tar` returns 0 on every path that returns to the
caller (`retval` is never reassigned; fatal conditions abort the process
directly), so the orchestrator's extraction-failure branch (the one that
would report "Error extracting tar file") is unreachable. -/
theorem c10_extract_retval_zero (openOk chdirOk : Bool) (E : List TarEntry)
    (r : CStr) (fs : FS) (rv : Int) (fs1 : FS) (cfg : Config)
    (h : extract_tar openOk chdirOk E r fs = .ok (rv, fs1)) :
    rv = 0 ∧ (main_run cfg).1 ≠ Outcome.abortExtractErr :=
  ⟨extract_tar_ret_zero openOk chdirOk E r fs rv fs1 h,
    main_run_not_extract_err cfg⟩

/-- Claim C10 witness: concrete returning run of `extract_tar`. -/
theorem c10_witness :
    (0 : Int) = 0
    ∧ (main_run ⟨2, some "/r".data, true, true, true, true, true, noDenied, [],
        fun _ => none⟩).1 ≠ Outcome.abortExtractErr :=
  c10_extract_retval_zero true true [] "/r".data (fun _ => none) 0 (fun _ => none)
    ⟨2, some "/r".data, true, true, true, true, true, noDenied, [], fun _ => none⟩ rfl
